import Mathlib

/-! Verification of the anime-dashboard preprocessing pipeline
(`preprocess_anime_data.py`) against its specification.

The script is a linear ETL pipeline over a tabular dataset:
load CSV → clean → derive `primary_genre` and `episode_range` →
rank and truncate to the top `TARGET_COUNT` rows → project compact
records → aggregate by genre and by episode range → package →
serialize as minimal-separator JSON.

We embed the table as a list of rows with optional fields (an absent
CSV cell / pandas `NaN` is `none`), rational scores, and model every
stage as an executable Lean function mirroring the pandas operations.
-/

namespace AnimeDash

/-- A raw input row as loaded from the CSV.  `score` is a decimal
(pandas float, modelled as `ℚ`), `genres` a comma-separated string;
`episodes` and `members` are non-negative integers.  An absent cell
(`NaN`) is `none`. -/
structure RawRow where
  name : String
  score : Option ℚ
  genres : Option String
  episodes : Option ℕ
  members : Option ℕ
  anime_id : ℕ
deriving DecidableEq, Repr

/-- The predicate of the cleaning filter: the dropna over the score
and genres columns followed by the positive-score filter keeps exactly
the rows whose `score` is present and positive and whose `genres` is
present. -/
def keepRow (r : RawRow) : Bool :=
  r.score.isSome && r.genres.isSome && decide (0 < r.score.getD 0)

/-- The `fillna(0)` substitutions on the `episodes` and `members`
columns. -/
def fillRow (r : RawRow) : RawRow :=
  { r with episodes := some (r.episodes.getD 0), members := some (r.members.getD 0) }

/-- The cleaning stage (script step 2): drop rows with absent `score`
or `genres`, drop rows with non-positive `score`, then fill absent
`episodes` and `members` with 0. -/
def cleanRaw (t : List RawRow) : List RawRow :=
  (t.filter keepRow).map fillRow

/-- Score of a row after cleaning (the column is guaranteed present;
pandas would read the stored float). -/
def scoreOf (r : RawRow) : ℚ := r.score.getD 0

/-- Episode count of a row after the `fillna(0)` substitution. -/
def episodesOf (r : RawRow) : ℕ := r.episodes.getD 0

/-- Member count of a row after the `fillna(0)` substitution. -/
def membersOf (r : RawRow) : ℕ := r.members.getD 0

/-- Strip leading and trailing whitespace from a character list,
modelling Python `str.strip()`. -/
def stripChars (l : List Char) : List Char :=
  ((l.dropWhile Char.isWhitespace).reverse.dropWhile Char.isWhitespace).reverse

/-- Primary genre (script step 3): `genres.split(',')[0].strip()` —
the text before the first comma, trimmed of surrounding whitespace. -/
def primary_genre (genres : String) : String :=
  String.mk (stripChars (genres.toList.takeWhile (fun c => c ≠ ',')))

/-- Primary genre of a cleaned row (`genres` is present there). -/
def primary_genreOf (r : RawRow) : String := primary_genre (r.genres.getD (""))

/-- The episode-count categorization function `categorize_episodes`
(script step 4): `none` models a `NaN` argument (`pd.isna`). -/
def categorize_episodes (episodes : Option ℕ) : String :=
  match episodes with
  | none => "Unknown"
  | some e =>
    if e = 0 then "Unknown"
    else if e ≤ 12 then "1-12"
    else if e ≤ 26 then "13-26"
    else if e ≤ 52 then "27-52"
    else if e ≤ 100 then "53-100"
    else if e ≤ 200 then "101-200"
    else "200+"

/-- Episode range of a row: `categorize_episodes` applied over the
episodes column after the `fillna`, so on cleaned rows the argument is
present. -/
def episode_rangeOf (r : RawRow) : String := categorize_episodes r.episodes

/-- Rounding a rational to 2 decimal places, modelling Python
`round(x, 2)` (the spec leaves the tie-rounding mode open; we use
round-half-up, which agrees with round-half-away-from-zero on the
positive scores that occur). -/
def round2 (x : ℚ) : ℚ := ((round (x * 100) : ℤ) : ℚ) / 100

/-- Mean of the scores of a list of rows (pandas `mean` aggregation). -/
def meanScore (l : List RawRow) : ℚ := (l.map scoreOf).sum / (l.length : ℚ)

/-- The selection constant `TARGET_COUNT` (script step 5). -/
def TARGET_COUNT : ℕ := 2000

/-- The comparison used to rank rows: score descending. -/
def scoreGE (a b : RawRow) : Bool := decide (scoreOf b ≤ scoreOf a)

/-- The cleaned table stably sorted by score descending, the order in
which `nlargest` ranks rows (pandas `nlargest` keeps the first
occurrence among ties). -/
def sortedClean (t : List RawRow) : List RawRow :=
  (cleanRaw t).mergeSort scoreGE

/-- Step 5: `nlargest` over the score column — the first
`TARGET_COUNT` rows in stable score-descending order. -/
def top_anime (t : List RawRow) : List RawRow :=
  (sortedClean t).take TARGET_COUNT

/-- A compact output record (script step 6): shortened keys
`n/g/s/e/m/r`. -/
structure CompactRecord where
  n : String
  g : String
  s : ℚ
  e : ℕ
  m : ℕ
  r : String
deriving DecidableEq, Repr

/-- Projection of one selected row to its compact record. -/
def toCompact (row : RawRow) : CompactRecord :=
  { n := row.name
    g := primary_genreOf row
    s := round2 (scoreOf row)
    e := episodesOf row
    m := membersOf row
    r := episode_rangeOf row }

/-- Step 6: the output `anime` sequence. -/
def anime_list (t : List RawRow) : List CompactRecord :=
  (top_anime t).map toCompact

/-- Comparison on strings used for the ascending key order of a pandas
`groupby` (`sort=True` is the default). -/
def strLE (a b : String) : Bool := decide (a ≤ b)

/-- The index of the groupby over `primary_genre`: the distinct
primary genres of the cleaned table, in ascending order. -/
def genreKeys (t : List RawRow) : List String :=
  (((cleanRaw t).map primary_genreOf).dedup).mergeSort strLE

/-- The group of cleaned rows carrying a given primary genre. -/
def genreGroup (t : List RawRow) (k : String) : List RawRow :=
  (cleanRaw t).filter (fun r => primary_genreOf r = k)

/-- One aggregated genre row (script step 7): label, mean score rounded
to 2 decimals (the `.round(2)` on the aggregated frame), and row
count. -/
def genreStatRow (t : List RawRow) (k : String) : String × ℚ × ℕ :=
  (k, round2 (meanScore (genreGroup t k)), (genreGroup t k).length)

/-- Comparison sorting aggregated rows by (rounded) mean score
descending (the sort_values step with ascending disabled). -/
def statGE (a b : String × ℚ × ℕ) : Bool := decide (b.2.1 ≤ a.2.1)

/-- Step 7: the aggregated genre table, keyed ascending by the groupby
and then sorted by mean score descending. -/
def genre_stats (t : List RawRow) : List (String × ℚ × ℕ) :=
  ((genreKeys t).map (genreStatRow t)).mergeSort statGE

/-- The `labels` sequence of `genreStats`. -/
def genre_labels (t : List RawRow) : List String := (genre_stats t).map (·.1)

/-- The `scores` sequence of `genreStats` (the list comprehension
rounds the already-rounded means once more). -/
def genre_scores (t : List RawRow) : List ℚ :=
  (genre_stats t).map (fun p => round2 p.2.1)

/-- The `counts` sequence of `genreStats`. -/
def genre_counts (t : List RawRow) : List ℕ := (genre_stats t).map (·.2.2)

/-- The fixed label order of the episode-range aggregation
(script step 8); note `"Unknown"` is not listed. -/
def episode_order : List String :=
  ["1-12", "13-26", "27-52", "53-100", "101-200", "200+"]

/-- The index of the groupby over `episode_range`: the distinct
episode ranges of the cleaned table, in ascending order. -/
def episodeKeys (t : List RawRow) : List String :=
  (((cleanRaw t).map episode_rangeOf).dedup).mergeSort strLE

/-- The group of cleaned rows carrying a given episode range. -/
def episodeGroup (t : List RawRow) (lab : String) : List RawRow :=
  (cleanRaw t).filter (fun r => episode_rangeOf r = lab)

/-- The `scores` sequence of `episodeStats`: for each label of the
fixed order, the (twice-)rounded mean score of its group when the
label occurs in the groupby index, else 0. -/
def episode_scores (t : List RawRow) : List ℚ :=
  episode_order.map (fun lab =>
    if lab ∈ episodeKeys t then round2 (round2 (meanScore (episodeGroup t lab))) else 0)

/-- The `counts` sequence of `episodeStats`: the group size when the
label occurs in the groupby index, else 0. -/
def episode_counts (t : List RawRow) : List ℕ :=
  episode_order.map (fun lab =>
    if lab ∈ episodeKeys t then (episodeGroup t lab).length else 0)

/-! JSON serialization model (script step 10):
`json.dump(data_package, f, separators=(',', ':'), ensure_ascii=False)`
and, for the round-trip claim, a deserializer.

Modelled from the spec: the deserializer (`json.loads` in the Python
standard library, not part of this repository) is modelled as a
recursive-descent parser of the JSON grammar fragment the serializer
emits (strings with escapes, decimal number lexemes, arrays, objects).
Numbers are carried as their decimal lexeme, so the model is exact
about bytes. -/

/-- The opening brace character, `U+007B`. -/
def lbrace : Char := Char.ofNat 123

/-- The closing brace character, `U+007D`. -/
def rbrace : Char := Char.ofNat 125

/-- Lowercase hexadecimal digit for a value below 16. -/
def hexDigitChar (n : ℕ) : Char :=
  ("0123456789abcdef".toList).getD n '0'

/-- Numeric value of a lowercase hexadecimal digit. -/
def hexVal (c : Char) : ℕ :=
  if 97 ≤ c.toNat then c.toNat - 87 else c.toNat - 48

/-- JSON escaping of a single character, as the `json` module performs
it with `ensure_ascii=False`: `"` and `\` get a backslash escape,
control characters use the short escapes `\b \t \n \f \r` when
available and `\u00XX` otherwise, everything else is emitted raw. -/
def escapeChar (c : Char) : List Char :=
  if c = '"' then ['\\', '"']
  else if c = '\\' then ['\\', '\\']
  else if c = Char.ofNat 8 then ['\\', 'b']
  else if c = Char.ofNat 9 then ['\\', 't']
  else if c = Char.ofNat 10 then ['\\', 'n']
  else if c = Char.ofNat 12 then ['\\', 'f']
  else if c = Char.ofNat 13 then ['\\', 'r']
  else if c.toNat < 32 then
    ['\\', 'u', '0', '0', hexDigitChar (c.toNat / 16), hexDigitChar (c.toNat % 16)]
  else [c]

/-- Serialized form of a JSON string: quote, escaped body, quote. -/
def serStr (s : List Char) : List Char :=
  '"' :: (s.map escapeChar).flatten ++ ['"']

/-- JSON values as the serializer produces them.  A number is carried
as its decimal lexeme (the exact characters written), which makes the
byte-level round-trip statement direct. -/
inductive JVal where
  | jnum (lexeme : List Char)
  | jstr (s : List Char)
  | jarr (elems : List JVal)
  | jobj (fields : List (List Char × JVal))

mutual

/-- Minimal-separator serialization of a JSON value
(`separators=(',', ':')`: item separator `,`, key separator `:`,
no whitespace). -/
def serVal : JVal → List Char
  | .jnum l => l
  | .jstr s => serStr s
  | .jarr es => '[' :: serItems es ++ [']']
  | .jobj fs => lbrace :: serFields fs ++ [rbrace]

/-- Serialization of array items, comma-separated. -/
def serItems : List JVal → List Char
  | [] => []
  | [v] => serVal v
  | v :: w :: vs => serVal v ++ ',' :: serItems (w :: vs)

/-- Serialization of object fields, `"key":value`, comma-separated. -/
def serFields : List (List Char × JVal) → List Char
  | [] => []
  | [kv] => serStr kv.1 ++ ':' :: serVal kv.2
  | kv :: f :: fs => serStr kv.1 ++ ':' :: serVal kv.2 ++ ',' :: serFields (f :: fs)

end

/-- Characters that may occur in a number lexeme. -/
def numChar (c : Char) : Bool :=
  c.isDigit || c = '-' || c = '+' || c = '.' || c = 'e' || c = 'E'

/-- Characters that may start a number lexeme. -/
def numStart (c : Char) : Bool := c.isDigit || c = '-'

/-- Decoder for one escape sequence, positioned just after a
backslash. -/
def decodeEsc : List Char → Option (Char × List Char)
  | [] => none
  | e :: r =>
    if e = '"' then some ('"', r)
    else if e = '\\' then some ('\\', r)
    else if e = 'b' then some (Char.ofNat 8, r)
    else if e = 't' then some (Char.ofNat 9, r)
    else if e = 'n' then some (Char.ofNat 10, r)
    else if e = 'f' then some (Char.ofNat 12, r)
    else if e = 'r' then some (Char.ofNat 13, r)
    else if e = 'u' then
      match r with
      | h1 :: h2 :: h3 :: h4 :: r2 =>
        some (Char.ofNat
          (((hexVal h1 * 16 + hexVal h2) * 16 + hexVal h3) * 16 + hexVal h4), r2)
      | _ => none
    else none

/-- Fuel-indexed parser for a string body after the opening quote:
consumes up to and including the closing quote, undoing the escapes.
Each step consumes at least one input character, so fuel equal to the
input length always suffices. -/
def parseStrBody : ℕ → List Char → Option (List Char × List Char)
  | 0, _ => none
  | f + 1, input =>
    match input with
    | [] => none
    | c :: rest =>
      if c = '"' then some ([], rest)
      else if c = '\\' then
        match decodeEsc rest with
        | some (ch, rest2) =>
          match parseStrBody f rest2 with
          | some (s, r) => some (ch :: s, r)
          | none => none
        | none => none
      else
        match parseStrBody f rest with
        | some (s, r) => some (c :: s, r)
        | none => none

mutual

/-- Fuel-indexed recursive-descent parser for one JSON value. -/
def parseVal : ℕ → List Char → Option (JVal × List Char)
  | 0, _ => none
  | f + 1, input =>
    match input with
    | [] => none
    | c :: rest =>
      if c = '"' then
        match parseStrBody rest.length rest with
        | some (s, r) => some (.jstr s, r)
        | none => none
      else if c = '[' then
        match rest with
        | [] => none
        | d :: r2 =>
          if d = ']' then some (.jarr [], r2)
          else
            match parseItems f rest with
            | some (vs, r3) => some (.jarr vs, r3)
            | none => none
      else if c = lbrace then
        match rest with
        | [] => none
        | d :: r2 =>
          if d = rbrace then some (.jobj [], r2)
          else
            match parseFields f rest with
            | some (fs, r3) => some (.jobj fs, r3)
            | none => none
      else if numStart c then
        some (.jnum (c :: rest.takeWhile numChar), rest.dropWhile numChar)
      else none

/-- Parser for one or more array items followed by `]`. -/
def parseItems : ℕ → List Char → Option (List JVal × List Char)
  | 0, _ => none
  | f + 1, input =>
    match parseVal f input with
    | some (v, r) =>
      match r with
      | [] => none
      | d :: r2 =>
        if d = ']' then some ([v], r2)
        else if d = ',' then
          match parseItems f r2 with
          | some (vs, r3) => some (v :: vs, r3)
          | none => none
        else none
    | none => none

/-- Parser for one or more object fields followed by the closing
brace. -/
def parseFields : ℕ → List Char → Option (List (List Char × JVal) × List Char)
  | 0, _ => none
  | f + 1, input =>
    match input with
    | [] => none
    | c :: rest =>
      if c = '"' then
        match parseStrBody rest.length rest with
        | some (k, r) =>
          match r with
          | [] => none
          | d :: r2 =>
            if d = ':' then
              match parseVal f r2 with
              | some (v, r3) =>
                match r3 with
                | [] => none
                | e :: r4 =>
                  if e = ',' then
                    match parseFields f r4 with
                    | some (fs, r5) => some ((k, v) :: fs, r5)
                    | none => none
                  else if e = rbrace then some ([(k, v)], r4)
                  else none
              | none => none
            else none
        | none => none
      else none

end

/-- Parser for a whole document: one value consuming all input. -/
def parseDoc (doc : List Char) : Option JVal :=
  match parseVal (doc.length + 1) doc with
  | some (v, []) => some v
  | _ => none

mutual

/-- Well-formedness of a value for the round-trip: number lexemes are
non-empty, consist of number characters and start with a digit or a
minus sign. -/
def wfVal : JVal → Prop
  | .jnum l => (∀ c ∈ l, numChar c = true) ∧ ∃ c cs, l = c :: cs ∧ numStart c = true
  | .jstr _ => True
  | .jarr es => wfItems es
  | .jobj fs => wfFields fs

/-- Well-formedness of a list of array items. -/
def wfItems : List JVal → Prop
  | [] => True
  | v :: vs => wfVal v ∧ wfItems vs

/-- Well-formedness of a list of object fields. -/
def wfFields : List (List Char × JVal) → Prop
  | [] => True
  | kv :: fs => wfVal kv.2 ∧ wfFields fs

end

mutual

/-- Fuel needed by `parseVal` on the serialization of a value. -/
def jsizeVal : JVal → ℕ
  | .jnum _ => 1
  | .jstr _ => 1
  | .jarr es => 1 + jsizeItems es
  | .jobj fs => 1 + jsizeFields fs

/-- Fuel needed by `parseItems` on serialized items. -/
def jsizeItems : List JVal → ℕ
  | [] => 0
  | v :: vs => 1 + jsizeVal v + jsizeItems vs

/-- Fuel needed by `parseFields` on serialized fields. -/
def jsizeFields : List (List Char × JVal) → ℕ
  | [] => 0
  | kv :: fs => 1 + jsizeVal kv.2 + jsizeFields fs

end

/-- Decimal digit string of a natural number. -/
def natLex (n : ℕ) : List Char :=
  if _ : n < 10 then [hexDigitChar n]
  else natLex (n / 10) ++ [hexDigitChar (n % 10)]
decreasing_by exact Nat.div_lt_self (by omega) (by omega)

/-- Fractional digits of a two-decimal value: the trailing zero is
dropped but at least one digit is kept. -/
def scoreFrac (fr : ℕ) : List Char :=
  if fr = 0 then ['0']
  else if fr % 10 = 0 then [hexDigitChar (fr / 10)]
  else hexDigitChar (fr / 10) :: [hexDigitChar (fr % 10)]

/-- Decimal lexeme of a two-decimal score, as the Python float `repr`
prints the result of `round(x, 2)`: an optional minus sign, the
integer part, a dot, and one or two fractional digits with a trailing
zero dropped but at least one digit kept (`8.0`, `8.5`, `8.25`). -/
def scoreLex (q : ℚ) : List Char :=
  (if round (q * 100) < 0 then ['-'] else []) ++
    natLex ((round (q * 100)).natAbs / 100) ++
      '.' :: scoreFrac ((round (q * 100)).natAbs % 100)

/-- The output package (script step 9), the in-memory value handed to
the serializer.  The two aggregation blocks are the parallel
label/score/count sequences; `generatedAt` is the timestamp string. -/
structure DataPackage where
  anime : List CompactRecord
  genreLabels : List String
  genreScores : List ℚ
  genreCounts : List ℕ
  epScores : List ℚ
  epCounts : List ℕ
  totalAnime : ℕ
  totalGenres : ℕ
  generatedAt : String
  sourceDataset : String

/-- JSON form of one compact anime record. -/
def recToJson (a : CompactRecord) : JVal :=
  .jobj [(['n'], .jstr a.n.toList),
         (['g'], .jstr a.g.toList),
         (['s'], .jnum (scoreLex a.s)),
         (['e'], .jnum (natLex a.e)),
         (['m'], .jnum (natLex a.m)),
         (['r'], .jstr a.r.toList)]

/-- JSON form of a labels/scores/counts statistics block. -/
def statsToJson (labels : List String) (scores : List ℚ) (counts : List ℕ) : JVal :=
  .jobj [("labels".toList, .jarr (labels.map (fun s => .jstr s.toList))),
         ("scores".toList, .jarr (scores.map (fun q => .jnum (scoreLex q)))),
         ("counts".toList, .jarr (counts.map (fun n => .jnum (natLex n))))]

/-- JSON form of the whole output package (`data_package` of step 9). -/
def pkgToJson (p : DataPackage) : JVal :=
  .jobj [("anime".toList, .jarr (p.anime.map recToJson)),
         ("genreStats".toList, statsToJson p.genreLabels p.genreScores p.genreCounts),
         ("episodeStats".toList, statsToJson episode_order p.epScores p.epCounts),
         ("metadata".toList, .jobj
            [("totalAnime".toList, .jnum (natLex p.totalAnime)),
             ("totalGenres".toList, .jnum (natLex p.totalGenres)),
             ("generatedAt".toList, .jstr p.generatedAt.toList),
             ("sourceDataset".toList, .jstr p.sourceDataset.toList)])]

/-- The document written by step 10: the minimal-separator
serialization of the package. -/
def serializeDoc (p : DataPackage) : List Char := serVal (pkgToJson p)

/-- Genres of a row, reading an absent cell as the empty string. -/
def genresOf (r : RawRow) : String := r.genres.getD ("")

/-- The seven bucket labels `categorize_episodes` can return. -/
def episodeBuckets : List String := "Unknown" :: episode_order

/-- Modelled from the spec: the cleaned-record invariant of spec §3,
exactly as the spec words it — `score` present and positive, `genres`
present and non-empty (nothing is said there about `episodes` or
`members`). -/
def specCleanedInvariant (r : RawRow) : Prop :=
  (r.score.isSome ∧ 0 < scoreOf r) ∧ (r.genres.isSome ∧ genresOf r ≠ "")

instance (r : RawRow) : Decidable (specCleanedInvariant r) := by
  unfold specCleanedInvariant; infer_instance

end AnimeDash

namespace AnimeDash

/-! Helper lemmas about the cleaning stage. -/

theorem keepRow_iff (r : RawRow) :
    keepRow r = true ↔ r.score.isSome ∧ r.genres.isSome ∧ 0 < scoreOf r := by
  simp [keepRow, scoreOf, and_assoc]

theorem fillRow_score (r : RawRow) : (fillRow r).score = r.score := rfl

theorem fillRow_genres (r : RawRow) : (fillRow r).genres = r.genres := rfl

theorem mem_cleanRaw {t : List RawRow} {r : RawRow} (h : r ∈ cleanRaw t) :
    r.score.isSome ∧ 0 < scoreOf r ∧ r.genres.isSome ∧
      r.episodes.isSome ∧ r.members.isSome ∧
      ∃ r0 ∈ t, r = fillRow r0 := by
  unfold cleanRaw at h
  obtain ⟨r0, hr0, rfl⟩ := List.mem_map.mp h
  obtain ⟨hmem, hkeep⟩ := List.mem_filter.mp hr0
  obtain ⟨hs, hg, hpos⟩ := (keepRow_iff r0).mp hkeep
  refine ⟨hs, ?_, hg, ?_, ?_, r0, hmem, rfl⟩
  · simpa [scoreOf, fillRow] using hpos
  · simp [fillRow]
  · simp [fillRow]

theorem fillRow_eq_self {r : RawRow} (he : r.episodes.isSome) (hm : r.members.isSome) :
    fillRow r = r := by
  obtain ⟨e, he⟩ := Option.isSome_iff_exists.mp he
  obtain ⟨m, hm⟩ := Option.isSome_iff_exists.mp hm
  simp only [fillRow, he, hm, Option.getD_some]
  rw [← he, ← hm]

theorem cleanRaw_eq_self {t : List RawRow}
    (h : ∀ r ∈ t, r.score.isSome ∧ 0 < scoreOf r ∧ r.genres.isSome ∧
      r.episodes.isSome ∧ r.members.isSome) :
    cleanRaw t = t := by
  unfold cleanRaw
  rw [List.filter_eq_self.mpr (fun r hr => (keepRow_iff r).mpr
    ⟨(h r hr).1, (h r hr).2.2.1, (h r hr).2.1⟩)]
  exact List.map_congr_left (fun r hr => fillRow_eq_self (h r hr).2.2.2.1 (h r hr).2.2.2.2) |>.trans
    (List.map_id t)

/-- C1: `categorize_episodes` is total on non-negative episode counts
and its buckets partition them with no gaps or overlaps: 0 (or an
absent count) maps to "Unknown", every integer in [1,12] to "1-12",
[13,26] to "13-26", [27,52] to "27-52", [53,100] to "53-100",
[101,200] to "101-200", every integer above 200 to "200+", and every
input lands in exactly one of the pairwise-distinct buckets. -/
theorem categorize_episodes_partition :
    categorize_episodes none = "Unknown" ∧
    categorize_episodes (some 0) = "Unknown" ∧
    (∀ n : ℕ, 1 ≤ n ∧ n ≤ 12 → categorize_episodes (some n) = "1-12") ∧
    (∀ n : ℕ, 13 ≤ n ∧ n ≤ 26 → categorize_episodes (some n) = "13-26") ∧
    (∀ n : ℕ, 27 ≤ n ∧ n ≤ 52 → categorize_episodes (some n) = "27-52") ∧
    (∀ n : ℕ, 53 ≤ n ∧ n ≤ 100 → categorize_episodes (some n) = "53-100") ∧
    (∀ n : ℕ, 101 ≤ n ∧ n ≤ 200 → categorize_episodes (some n) = "101-200") ∧
    (∀ n : ℕ, 200 < n → categorize_episodes (some n) = "200+") ∧
    (∀ e : Option ℕ, categorize_episodes e ∈ episodeBuckets) ∧
    episodeBuckets.Pairwise (· ≠ ·) := by
  refine ⟨rfl, rfl, ?_, ?_, ?_, ?_, ?_, ?_, ?_, by decide⟩
  · intro n h
    simp only [categorize_episodes]
    rw [if_neg (by omega), if_pos (by omega)]
  · intro n h
    simp only [categorize_episodes]
    rw [if_neg (by omega), if_neg (by omega), if_pos (by omega)]
  · intro n h
    simp only [categorize_episodes]
    rw [if_neg (by omega), if_neg (by omega), if_neg (by omega), if_pos (by omega)]
  · intro n h
    simp only [categorize_episodes]
    rw [if_neg (by omega), if_neg (by omega), if_neg (by omega), if_neg (by omega),
      if_pos (by omega)]
  · intro n h
    simp only [categorize_episodes]
    rw [if_neg (by omega), if_neg (by omega), if_neg (by omega), if_neg (by omega),
      if_neg (by omega), if_pos (by omega)]
  · intro n h
    simp only [categorize_episodes]
    rw [if_neg (by omega), if_neg (by omega), if_neg (by omega), if_neg (by omega),
      if_neg (by omega), if_neg (by omega)]
  · intro e
    match e with
    | none => simp [categorize_episodes, episodeBuckets]
    | some n =>
      simp only [categorize_episodes]
      split
      · decide
      split
      · decide
      split
      · decide
      split
      · decide
      split
      · decide
      split
      · decide
      · decide

/-- Witness for C1 at concrete inputs. -/
theorem categorize_episodes_partition_witness :
    categorize_episodes (some 5) = "1-12" ∧ categorize_episodes (some 300) = "200+" :=
  ⟨categorize_episodes_partition.2.2.1 5 (by decide),
   categorize_episodes_partition.2.2.2.2.2.2.2.1 300 (by decide)⟩

theorem takeWhile_append_cons {α} (p : α → Bool) (a : List α) (x : α) (b : List α)
    (ha : ∀ c ∈ a, p c = true) (hx : p x = false) :
    (a ++ x :: b).takeWhile p = a := by
  induction a with
  | nil => simp [List.takeWhile_cons, hx]
  | cons c a ih =>
    have hc := ha c (List.mem_cons_self c a)
    have ih' := ih (fun d hd => ha d (List.mem_cons_of_mem c hd))
    simp [List.takeWhile_cons, hc, ih']

theorem takeWhile_eq_self_of_all {α} (p : α → Bool) (a : List α)
    (ha : ∀ c ∈ a, p c = true) : a.takeWhile p = a := by
  induction a with
  | nil => rfl
  | cons c a ih =>
    have hc := ha c (List.mem_cons_self c a)
    have ih' := ih (fun d hd => ha d (List.mem_cons_of_mem c hd))
    simp [List.takeWhile_cons, hc, ih']

/-- C6: for every `genres` string, `primary_genre` is the text before
the first comma, trimmed of surrounding whitespace; when the string
has no comma the whole trimmed string is the result; in particular
`primary_genre` of ("Action, Comedy, Drama") is ("Action") and
`primary_genre` of ("Action") is ("Action"). -/
theorem primary_genre_first_comma :
    (∀ a b : List Char, ',' ∉ a →
      primary_genre (String.mk (a ++ ',' :: b)) = String.mk (stripChars a)) ∧
    (∀ a : List Char, ',' ∉ a →
      primary_genre (String.mk a) = String.mk (stripChars a)) ∧
    primary_genre ("Action, Comedy, Drama") = "Action" ∧
    primary_genre ("Action") = "Action" := by
  refine ⟨?_, ?_, by decide, by decide⟩
  · intro a b hna
    unfold primary_genre
    congr 1
    congr 1
    show (a ++ ',' :: b).takeWhile (fun c => decide (c ≠ ',')) = a
    refine takeWhile_append_cons _ a ',' b (fun c hc => ?_) (by simp)
    simp only [decide_eq_true_eq]
    intro h
    exact hna (h ▸ hc)
  · intro a hna
    unfold primary_genre
    congr 1
    congr 1
    show a.takeWhile (fun c => decide (c ≠ ',')) = a
    refine takeWhile_eq_self_of_all _ a (fun c hc => ?_)
    simp only [decide_eq_true_eq]
    intro h
    exact hna (h ▸ hc)

/-- Witness for C6 at a concrete split: "Sci-Fi , Mecha" splits at the
first comma and trims to "Sci-Fi". -/
theorem primary_genre_first_comma_witness :
    primary_genre (String.mk ("Sci-Fi ".toList ++ ',' :: " Mecha".toList)) =
      String.mk (stripChars ("Sci-Fi ".toList)) :=
  primary_genre_first_comma.1 ("Sci-Fi ".toList) (" Mecha".toList) (by decide)

/-- A raw row whose `genres` cell holds the empty string (possible for
an arbitrary in-memory table, though not for one loaded from CSV). -/
def rowEmptyGenres : RawRow :=
  { name := "x", score := some 5, genres := some (""), episodes := none,
    members := none, anime_id := 0 }

/-- A raw row satisfying the cleaned-record invariant of the spec but
with an absent `episodes` cell. -/
def rowNoEpisodes : RawRow :=
  { name := "x", score := some 5, genres := some ("A"), episodes := none,
    members := none, anime_id := 0 }

/-- A fully populated valid raw row. -/
def rowBebop : RawRow :=
  { name := "Cowboy Bebop", score := some 9, genres := some ("Action, Sci-Fi"),
    episodes := some 26, members := some 500, anime_id := 1 }

/-- Another fully populated valid raw row. -/
def rowDrama : RawRow :=
  { name := "y", score := some 8, genres := some ("Drama"), episodes := some 12,
    members := some 10, anime_id := 2 }

/-- C2 counterexample: the cleaning stage checks only that `genres` is
present, not that it is non-empty; a raw row whose `genres` cell holds
the empty string survives cleaning with empty `genres`, so the claim,
quantified over every raw input table, is false. -/
theorem cleanRaw_genres_nonempty_cex :
    ¬ (∀ (t : List RawRow), ∀ r ∈ cleanRaw t, 0 < scoreOf r ∧ genresOf r ≠ "") := by
  intro h
  have hmem : fillRow rowEmptyGenres ∈ cleanRaw [rowEmptyGenres] := by decide
  exact (h _ _ hmem).2 (by decide)

/-- C2 (amended): every row surviving the cleaning stage has `score`
present and positive and `genres` present; `genres` is moreover
non-empty whenever no raw row carries an empty `genres` string (as is
the case for tables loaded from CSV, where an empty cell is absent,
not the empty string). -/
theorem cleanRaw_invariant (t : List RawRow) (hne : ∀ r ∈ t, r.genres ≠ some ("")) :
    ∀ r ∈ cleanRaw t,
      r.score.isSome ∧ 0 < scoreOf r ∧ r.genres.isSome ∧ genresOf r ≠ "" := by
  intro r hr
  obtain ⟨hs, hpos, hg, -, -, r0, hr0, rfl⟩ := mem_cleanRaw hr
  refine ⟨hs, hpos, hg, ?_⟩
  have hgen : (fillRow r0).genres = r0.genres := rfl
  intro hempty
  apply hne r0 hr0
  unfold genresOf at hempty
  rw [hgen] at hempty hg
  obtain ⟨g, hg'⟩ := Option.isSome_iff_exists.mp hg
  rw [hg'] at hempty ⊢
  rw [Option.getD_some] at hempty
  rw [hempty]

/-- Witness for C2 at a concrete one-row table. -/
theorem cleanRaw_invariant_witness :
    (fillRow rowBebop).score.isSome ∧ 0 < scoreOf (fillRow rowBebop) ∧
      (fillRow rowBebop).genres.isSome ∧ genresOf (fillRow rowBebop) ≠ "" :=
  cleanRaw_invariant [rowBebop] (by decide) _ (by decide)

/-- C7 counterexample: the cleaned-record invariant of the spec (§3) says
nothing about `episodes` or `members`; a table whose single row
satisfies it but has an absent `episodes` cell is changed by the
cleaner (the `fillna(0)` substitutes 0), so the cleaner is not the
identity on every table satisfying that invariant. -/
theorem cleanRaw_not_identity_cex :
    ¬ (∀ t : List RawRow, (∀ r ∈ t, specCleanedInvariant r) → cleanRaw t = t) := by
  intro h
  exact absurd (h [rowNoEpisodes] (by decide)) (by decide)

/-- C7 (amended): the cleaner is idempotent — it is the identity on
every table whose rows have `score` present and positive, `genres`
present, and `episodes` and `members` present (which is exactly the
state of its own output), and consequently re-applying the cleaner to
already-cleaned data is a no-op. -/
theorem cleanRaw_idempotent :
    (∀ t : List RawRow,
      (∀ r ∈ t, r.score.isSome ∧ 0 < scoreOf r ∧ r.genres.isSome ∧
        r.episodes.isSome ∧ r.members.isSome) →
      cleanRaw t = t) ∧
    (∀ t : List RawRow, cleanRaw (cleanRaw t) = cleanRaw t) := by
  constructor
  · exact fun t h => cleanRaw_eq_self h
  · intro t
    apply cleanRaw_eq_self
    intro r hr
    obtain ⟨hs, hpos, hg, he, hm, -⟩ := mem_cleanRaw hr
    exact ⟨hs, hpos, hg, he, hm⟩

/-- Witness for C7 on a concrete already-clean one-row table. -/
theorem cleanRaw_idempotent_witness : cleanRaw [rowDrama] = [rowDrama] :=
  cleanRaw_idempotent.1 _ (by decide)

/-! Helper lemmas for the ranking stage. -/

theorem scoreGE_trans : ∀ a b c : RawRow,
    scoreGE a b = true → scoreGE b c = true → scoreGE a c = true := by
  intro a b c hab hbc
  simp only [scoreGE, decide_eq_true_eq] at hab hbc ⊢
  exact le_trans hbc hab

theorem scoreGE_total : ∀ a b : RawRow, (scoreGE a b || scoreGE b a) = true := by
  intro a b
  rcases le_total (scoreOf a) (scoreOf b) with h | h <;>
    simp [scoreGE, h]

theorem round2_mono {a b : ℚ} (h : a ≤ b) : round2 a ≤ round2 b := by
  unfold round2
  have h1 : round (a * 100) ≤ round (b * 100) := by
    rw [round_eq, round_eq]
    exact Int.floor_mono (by linarith)
  have h2 : ((round (a * 100) : ℤ) : ℚ) ≤ ((round (b * 100) : ℤ) : ℚ) := by
    exact_mod_cast h1
  linarith

theorem sortedClean_pairwise (t : List RawRow) :
    (sortedClean t).Pairwise (fun a b => scoreGE a b = true) := by
  exact List.sorted_mergeSort scoreGE_trans scoreGE_total (cleanRaw t)

/-- C3: for every input table, the output `anime` sequence has length
`min TARGET_COUNT (number of cleaned rows)` — fewer cleaned rows than
the target just gives a shorter output — and its records are sorted by
the rounded score field `s` in descending order. -/
theorem anime_list_length_sorted (t : List RawRow) :
    (anime_list t).length = min TARGET_COUNT (cleanRaw t).length ∧
    (anime_list t).Pairwise (fun a b => b.s ≤ a.s) := by
  constructor
  · simp [anime_list, top_anime, sortedClean]
  · have htake : (top_anime t).Pairwise (fun a b => scoreGE a b = true) :=
      List.Pairwise.sublist (List.take_sublist _ _) (sortedClean_pairwise t)
    unfold anime_list
    rw [List.pairwise_map]
    refine htake.imp (fun hab => ?_)
    simp only [scoreGE, decide_eq_true_eq] at hab
    exact round2_mono hab

/-- C10: the top-N selection resolves score ties by original order.
The stable descending sort underlying `nlargest` keeps the rows of any
fixed score in their cleaned-table order, and the selected rows of
that score form a prefix of the rows of that score in the cleaned table, so
the selected sequence is uniquely determined and earlier rows win at
the cutoff. -/
theorem nlargest_ties_stable (t : List RawRow) (c : ℚ) :
    (sortedClean t).filter (fun r => scoreOf r = c) =
      (cleanRaw t).filter (fun r => scoreOf r = c) ∧
    ∃ rest, (cleanRaw t).filter (fun r => scoreOf r = c) =
      (top_anime t).filter (fun r => scoreOf r = c) ++ rest := by
  have hpw : ((cleanRaw t).filter (fun r => scoreOf r = c)).Pairwise
      (fun a b => scoreGE a b = true) := by
    refine List.pairwise_of_forall_mem_list (fun a ha b hb => ?_)
    have ha' := (List.mem_filter.mp ha).2
    have hb' := (List.mem_filter.mp hb).2
    simp only [decide_eq_true_eq] at ha' hb'
    simp [scoreGE, ha', hb']
  have hsub : List.Sublist ((cleanRaw t).filter (fun r => scoreOf r = c)) (sortedClean t) :=
    List.sublist_mergeSort scoreGE_trans scoreGE_total hpw (List.filter_sublist _)
  have hsub2 : List.Sublist ((cleanRaw t).filter (fun r => scoreOf r = c))
      ((sortedClean t).filter (fun r => scoreOf r = c)) := by
    have h := hsub.filter (fun r => decide (scoreOf r = c))
    rwa [List.filter_filter, List.filter_congr (fun a _ => Bool.and_self _)] at h
  have hperm : List.Perm ((sortedClean t).filter (fun r => scoreOf r = c))
      ((cleanRaw t).filter (fun r => scoreOf r = c)) :=
    (List.mergeSort_perm (cleanRaw t) scoreGE).filter _
  have heq : (sortedClean t).filter (fun r => scoreOf r = c) =
      (cleanRaw t).filter (fun r => scoreOf r = c) :=
    (hsub2.eq_of_length hperm.length_eq.symm).symm
  refine ⟨heq, (sortedClean t).drop TARGET_COUNT |>.filter (fun r => scoreOf r = c), ?_⟩
  rw [← heq]
  have hsplit : sortedClean t =
      (sortedClean t).take TARGET_COUNT ++ (sortedClean t).drop TARGET_COUNT :=
    (List.take_append_drop _ _).symm
  conv_lhs => rw [hsplit]
  rw [List.filter_append]
  rfl

/-! Helper lemmas for the aggregation stages. -/

theorem statGE_trans : ∀ a b c : String × ℚ × ℕ,
    statGE a b = true → statGE b c = true → statGE a c = true := by
  intro a b c hab hbc
  simp only [statGE, decide_eq_true_eq] at hab hbc ⊢
  exact le_trans hbc hab

theorem statGE_total : ∀ a b : String × ℚ × ℕ, (statGE a b || statGE b a) = true := by
  intro a b
  rcases le_total a.2.1 b.2.1 with h | h <;> simp [statGE, h]

theorem length_filter_eq_count (t : List RawRow) (f : RawRow → String) (k : String) :
    (t.filter (fun r => f r = k)).length = (t.map f).count k := by
  rw [List.count_eq_countP, List.countP_map, ← List.countP_eq_length_filter]
  apply List.countP_congr
  intro r _
  simp [Function.comp, beq_iff_eq]

theorem sum_length_groups (t : List RawRow) (f : RawRow → String) :
    (((t.map f).dedup).map (fun k => (t.filter (fun r => f r = k)).length)).sum
      = t.length := by
  have hfun : (fun k => (t.filter (fun r => decide (f r = k))).length)
      = fun k => (t.map f).count k :=
    funext (fun k => length_filter_eq_count t f k)
  rw [hfun, List.sum_map_count_dedup_eq_length, List.length_map]

/-- C4: the genre statistics are computed over the full cleaned table:
`labels`, `scores`, `counts` are parallel (equal-length) sequences,
sorted by descending (rounded) mean score, and the counts sum to the
number of cleaned rows, because every cleaned row belongs to exactly
one primary-genre group. -/
theorem genre_stats_sorted_sum (t : List RawRow) :
    (genre_labels t).length = (genre_stats t).length ∧
    (genre_scores t).length = (genre_stats t).length ∧
    (genre_counts t).length = (genre_stats t).length ∧
    (genre_scores t).Pairwise (fun a b => b ≤ a) ∧
    (genre_counts t).sum = (cleanRaw t).length := by
  refine ⟨List.length_map .., List.length_map .., List.length_map .., ?_, ?_⟩
  · have hsorted : (genre_stats t).Pairwise (fun a b => statGE a b = true) :=
      List.sorted_mergeSort statGE_trans statGE_total _
    unfold genre_scores
    rw [List.pairwise_map]
    refine hsorted.imp (fun hab => ?_)
    simp only [statGE, decide_eq_true_eq] at hab
    exact round2_mono hab
  · have hperm1 : List.Perm (genre_counts t)
        (((genreKeys t).map (genreStatRow t)).map (·.2.2)) :=
      (List.mergeSort_perm ((genreKeys t).map (genreStatRow t)) statGE).map _
    rw [hperm1.sum_eq, List.map_map]
    have hperm2 : List.Perm (genreKeys t) (((cleanRaw t).map primary_genreOf).dedup) :=
      List.mergeSort_perm _ _
    rw [(hperm2.map ((·.2.2) ∘ genreStatRow t)).sum_eq]
    have hfun : ((·.2.2) ∘ genreStatRow t : String → ℕ)
        = fun k => ((cleanRaw t).filter (fun r => primary_genreOf r = k)).length := rfl
    rw [hfun]
    exact sum_length_groups (cleanRaw t) primary_genreOf

theorem getD_map_lt {α β : Type _} (f : α → β) (l : List α) (i : ℕ)
    (hi : i < l.length) (d : β) :
    (l.map f).getD i d = f (l.get ⟨i, hi⟩) := by
  rw [List.getD_eq_getElem?_getD, List.getElem?_map, List.getElem?_eq_getElem hi]
  rfl

theorem mem_episodeKeys (t : List RawRow) (lab : String) :
    lab ∈ episodeKeys t ↔ ∃ r ∈ cleanRaw t, episode_rangeOf r = lab := by
  unfold episodeKeys
  simp [List.mem_dedup]

theorem round2_round2 (x : ℚ) : round2 (round2 x) = round2 x := by
  unfold round2
  have h : ((round (x * 100) : ℤ) : ℚ) / 100 * 100 = ((round (x * 100) : ℤ) : ℚ) := by
    field_simp
  rw [h, round_intCast]

/-- C5: `episodeStats.labels` is the fixed 6-element bucket order for
every input ("Unknown" excluded); at each fixed position, a bucket
with no cleaned rows contributes score 0 and count 0, and a present
bucket contributes the rounded mean score of its group and its row
count. -/
theorem episode_stats_fixed_order (t : List RawRow) :
    episode_order = ["1-12", "13-26", "27-52", "53-100", "101-200", "200+"] ∧
    (episode_scores t).length = 6 ∧
    (episode_counts t).length = 6 ∧
    ∀ (i : ℕ) (hi : i < episode_order.length),
      ((∀ r ∈ cleanRaw t, episode_rangeOf r ≠ episode_order.get ⟨i, hi⟩) →
        (episode_scores t).getD i 0 = 0 ∧ (episode_counts t).getD i 0 = 0) ∧
      ((∃ r ∈ cleanRaw t, episode_rangeOf r = episode_order.get ⟨i, hi⟩) →
        (episode_scores t).getD i 0 =
          round2 (meanScore (episodeGroup t (episode_order.get ⟨i, hi⟩))) ∧
        (episode_counts t).getD i 0 = (episodeGroup t (episode_order.get ⟨i, hi⟩)).length) := by
  refine ⟨rfl, rfl, rfl, ?_⟩
  intro i hi
  constructor
  · intro hnone
    have hnotmem : episode_order.get ⟨i, hi⟩ ∉ episodeKeys t := by
      intro hmem
      obtain ⟨r, hr, he⟩ := (mem_episodeKeys t _).mp hmem
      exact hnone r hr he
    constructor
    · rw [episode_scores, getD_map_lt _ _ _ hi, if_neg hnotmem]
    · rw [episode_counts, getD_map_lt _ _ _ hi, if_neg hnotmem]
  · intro hex
    have hmem : episode_order.get ⟨i, hi⟩ ∈ episodeKeys t :=
      (mem_episodeKeys t _).mpr hex
    constructor
    · rw [episode_scores, getD_map_lt _ _ _ hi, if_pos hmem, round2_round2]
    · rw [episode_counts, getD_map_lt _ _ _ hi, if_pos hmem]

/-- Witness for C5 on a concrete one-row table whose row falls in the
"1-12" bucket (position 0 of the fixed order). -/
theorem episode_stats_fixed_order_witness :
    (episode_scores [rowDrama]).getD 0 0 =
      round2 (meanScore (episodeGroup [rowDrama] "1-12")) ∧
    (episode_counts [rowDrama]).getD 0 0 = (episodeGroup [rowDrama] "1-12").length :=
  (((episode_stats_fixed_order [rowDrama]).2.2.2 0 (by decide)).2)
    ⟨fillRow rowDrama, by decide, by decide⟩

/-! Helper lemmas for the serialization round-trip (C9). -/

theorem hexVal_hexDigitChar (n : ℕ) (h : n < 16) : hexVal (hexDigitChar n) = n := by
  interval_cases n <;> decide

/-- Heads that may legally follow a serialized value inside a
document: nothing (top level), an item separator, or a closing
bracket or brace. -/
def restStop (rest : List Char) : Prop :=
  match rest with
  | [] => True
  | c :: _ => c = ',' ∨ c = ']' ∨ c = rbrace

theorem escapeChar_eq_u (c : Char) (h1 : c ≠ '"') (h2 : c ≠ '\\')
    (h3 : c ≠ Char.ofNat 8) (h4 : c ≠ Char.ofNat 9) (h5 : c ≠ Char.ofNat 10)
    (h6 : c ≠ Char.ofNat 12) (h7 : c ≠ Char.ofNat 13) (h8 : c.toNat < 32) :
    escapeChar c =
      ['\\', 'u', '0', '0', hexDigitChar (c.toNat / 16), hexDigitChar (c.toNat % 16)] := by
  unfold escapeChar
  rw [if_neg h1, if_neg h2, if_neg h3, if_neg h4, if_neg h5, if_neg h6, if_neg h7, if_pos h8]

theorem escapeChar_eq_raw (c : Char) (h1 : c ≠ '"') (h2 : c ≠ '\\')
    (h8 : ¬ c.toNat < 32) : escapeChar c = [c] := by
  have hc : ∀ n, c.toNat < 32 → c ≠ Char.ofNat n → True := fun _ _ _ => trivial
  unfold escapeChar
  rw [if_neg h1, if_neg h2, if_neg ?h3, if_neg ?h4, if_neg ?h5, if_neg ?h6, if_neg ?h7,
    if_neg h8]
  case h3 => intro h; exact h8 (by rw [h]; decide)
  case h4 => intro h; exact h8 (by rw [h]; decide)
  case h5 => intro h; exact h8 (by rw [h]; decide)
  case h6 => intro h; exact h8 (by rw [h]; decide)
  case h7 => intro h; exact h8 (by rw [h]; decide)

theorem parseStrBody_rt (s : List Char) : ∀ (f : ℕ) (rest : List Char), s.length < f →
    parseStrBody f ((s.map escapeChar).flatten ++ '"' :: rest) = some (s, rest) := by
  induction s with
  | nil =>
    intro f rest hf
    match f, hf with
    | f + 1, _ => simp [parseStrBody]
  | cons c s ih =>
    intro f rest hf
    match f, hf with
    | f + 1, hf =>
      show parseStrBody (f + 1) ((escapeChar c ++ (s.map escapeChar).flatten) ++ '"' :: rest)
        = some (c :: s, rest)
      rw [List.append_assoc]
      have hf2 : s.length < f := by
        simp only [List.length_cons] at hf
        omega
      have ihf := ih f rest hf2
      by_cases h1 : c = '"'
      · subst h1
        rw [show escapeChar '"' = ['\\', '"'] from by decide]
        simp only [List.cons_append, List.nil_append, parseStrBody]
        simp [decodeEsc, ihf]
      · by_cases h2 : c = '\\'
        · subst h2
          rw [show escapeChar '\\' = ['\\', '\\'] from by decide]
          simp only [List.cons_append, List.nil_append, parseStrBody]
          simp [decodeEsc, ihf]
        · by_cases h3 : c = Char.ofNat 8
          · subst h3
            rw [show escapeChar (Char.ofNat 8) = ['\\', 'b'] from by decide]
            simp only [List.cons_append, List.nil_append, parseStrBody]
            simp [decodeEsc, ihf]
          · by_cases h4 : c = Char.ofNat 9
            · subst h4
              rw [show escapeChar (Char.ofNat 9) = ['\\', 't'] from by decide]
              simp only [List.cons_append, List.nil_append, parseStrBody]
              simp [decodeEsc, ihf]
            · by_cases h5 : c = Char.ofNat 10
              · subst h5
                rw [show escapeChar (Char.ofNat 10) = ['\\', 'n'] from by decide]
                simp only [List.cons_append, List.nil_append, parseStrBody]
                simp [decodeEsc, ihf]
              · by_cases h6 : c = Char.ofNat 12
                · subst h6
                  rw [show escapeChar (Char.ofNat 12) = ['\\', 'f'] from by decide]
                  simp only [List.cons_append, List.nil_append, parseStrBody]
                  simp [decodeEsc, ihf]
                · by_cases h7 : c = Char.ofNat 13
                  · subst h7
                    rw [show escapeChar (Char.ofNat 13) = ['\\', 'r'] from by decide]
                    simp only [List.cons_append, List.nil_append, parseStrBody]
                    simp [decodeEsc, ihf]
                  · by_cases h8 : c.toNat < 32
                    · rw [escapeChar_eq_u c h1 h2 h3 h4 h5 h6 h7 h8]
                      have e1 : hexVal (hexDigitChar (c.toNat / 16)) = c.toNat / 16 :=
                        hexVal_hexDigitChar _ (by omega)
                      have e2 : hexVal (hexDigitChar (c.toNat % 16)) = c.toNat % 16 :=
                        hexVal_hexDigitChar _ (Nat.mod_lt _ (by omega))
                      have e3 : ((hexVal '0' * 16 + hexVal '0') * 16 + c.toNat / 16) * 16
                          + c.toNat % 16 = c.toNat := by
                        have h0 : hexVal '0' = 0 := by decide
                        rw [h0]
                        omega
                      simp only [List.cons_append, List.nil_append, parseStrBody]
                      simp [decodeEsc, ihf, e1, e2, e3, Char.ofNat_toNat]
                    · rw [escapeChar_eq_raw c h1 h2 h8]
                      simp only [List.cons_append, List.nil_append, parseStrBody]
                      rw [if_neg h1, if_neg h2]
                      simp [ihf]

theorem one_le_escapeChar_length (c : Char) : 1 ≤ (escapeChar c).length := by
  unfold escapeChar
  split_ifs <;> simp

theorem length_le_escFlat (s : List Char) : s.length ≤ ((s.map escapeChar).flatten).length := by
  induction s with
  | nil => simp
  | cons c s ih =>
    simp only [List.map_cons, List.flatten_cons, List.length_append, List.length_cons]
    have := one_le_escapeChar_length c
    omega

theorem serStr_shape (s : List Char) :
    serStr s = '"' :: ((s.map escapeChar).flatten ++ '"' :: []) := by
  simp [serStr]

theorem parseStrBody_serStr (s : List Char) (tail : List Char) :
    parseStrBody ((s.map escapeChar).flatten ++ '"' :: tail).length
      ((s.map escapeChar).flatten ++ '"' :: tail) = some (s, tail) := by
  apply parseStrBody_rt
  have := length_le_escFlat s
  simp only [List.length_append, List.length_cons]
  omega

theorem numStart_not_delim (c : Char) (h : numStart c = true) :
    c ≠ '"' ∧ c ≠ '[' ∧ c ≠ lbrace ∧ c ≠ ']' ∧ c ≠ ',' ∧ c ≠ rbrace ∧ c ≠ ':' := by
  refine ⟨?_, ?_, ?_, ?_, ?_, ?_, ?_⟩ <;> rintro rfl <;> exact absurd h (by decide)

theorem restStop_not_numChar (rest : List Char) (h : restStop rest) :
    ∀ c cs, rest = c :: cs → numChar c = false := by
  intro c cs hr
  subst hr
  rcases h with h | h | h <;> subst h <;> decide

theorem takeWhile_append_stop {α} (p : α → Bool) (l r : List α)
    (hl : ∀ c ∈ l, p c = true) (hr : ∀ c cs, r = c :: cs → p c = false) :
    (l ++ r).takeWhile p = l ∧ (l ++ r).dropWhile p = r := by
  induction l with
  | nil =>
    match r with
    | [] => simp
    | c :: cs =>
      have := hr c cs rfl
      simp [List.takeWhile_cons, List.dropWhile_cons, this]
  | cons c l ih =>
    have hc := hl c (List.mem_cons_self c l)
    have ih2 := ih (fun d hd => hl d (List.mem_cons_of_mem c hd))
    simp only [List.cons_append, List.takeWhile_cons, List.dropWhile_cons, hc]
    simp only [if_true, ih2.1, ih2.2]
    exact ⟨trivial, trivial⟩

theorem serVal_shape (v : JVal) (hwf : wfVal v) :
    ∃ c tail, serVal v = c :: tail ∧
      (c = '"' ∨ c = '[' ∨ c = lbrace ∨ numStart c = true) := by
  match v with
  | .jnum l =>
    obtain ⟨-, c, cs, hl, hc⟩ := hwf
    exact ⟨c, cs, by simp [serVal, hl], Or.inr (Or.inr (Or.inr hc))⟩
  | .jstr s =>
    exact ⟨'"', _, by rw [serVal, serStr_shape], Or.inl rfl⟩
  | .jarr es =>
    exact ⟨'[', serItems es ++ [']'], by simp [serVal], Or.inr (Or.inl rfl)⟩
  | .jobj fs =>
    exact ⟨lbrace, serFields fs ++ [rbrace], by simp [serVal], Or.inr (Or.inr (Or.inl rfl))⟩

theorem serItems_cons_eq (v : JVal) (vs : List JVal) :
    ∃ X, serItems (v :: vs) = serVal v ++ X := by
  cases vs with
  | nil => exact ⟨[], by simp [serItems]⟩
  | cons w ws => exact ⟨',' :: serItems (w :: ws), rfl⟩

theorem serFields_cons_eq (kv : List Char × JVal) (fs : List (List Char × JVal)) :
    ∃ X, serFields (kv :: fs) = serStr kv.1 ++ ':' :: (serVal kv.2 ++ X) := by
  cases fs with
  | nil => exact ⟨[], by simp [serFields]⟩
  | cons f0 fs2 => exact ⟨',' :: serFields (f0 :: fs2), by simp [serFields]⟩

theorem head_ne_of_shape (c : Char)
    (hc : c = '"' ∨ c = '[' ∨ c = lbrace ∨ numStart c = true) :
    c ≠ ']' ∧ c ≠ rbrace := by
  rcases hc with rfl | rfl | rfl | h
  · exact ⟨by decide, by decide⟩
  · exact ⟨by decide, by decide⟩
  · exact ⟨by decide, by decide⟩
  · exact ⟨(numStart_not_delim c h).2.2.2.1, (numStart_not_delim c h).2.2.2.2.2.1⟩

mutual

theorem parseVal_rt (v : JVal) (hwf : wfVal v) :
    ∀ (f : ℕ) (rest : List Char), jsizeVal v ≤ f → restStop rest →
      parseVal f (serVal v ++ rest) = some (v, rest) := by
  match v with
  | .jnum l =>
    obtain ⟨hall, c, cs, hl, hc⟩ := hwf
    intro f rest hf hrest
    cases f with
    | zero => simp [jsizeVal] at hf
    | succ f =>
      subst hl
      have hd := numStart_not_delim c hc
      have hstop := takeWhile_append_stop numChar cs rest
        (fun d hd2 => hall d (List.mem_cons_of_mem c hd2))
        (restStop_not_numChar rest hrest)
      have hshape : serVal (.jnum (c :: cs)) ++ rest = c :: (cs ++ rest) := by
        simp [serVal]
      rw [hshape]
      simp [parseVal, hd.1, hd.2.1, hd.2.2.1, hc, hstop.1, hstop.2]
  | .jstr s =>
    intro f rest hf hrest
    cases f with
    | zero => simp [jsizeVal] at hf
    | succ f =>
      have hshape : serVal (.jstr s) ++ rest
          = '"' :: ((s.map escapeChar).flatten ++ '"' :: rest) := by
        simp [serVal, serStr]
      rw [hshape]
      simp only [parseVal]
      rw [parseStrBody_serStr s rest]
      simp
  | .jarr [] =>
    intro f rest hf hrest
    cases f with
    | zero => simp [jsizeVal] at hf
    | succ f =>
      have hshape : serVal (.jarr []) ++ rest = '[' :: ']' :: rest := by
        simp [serVal, serItems]
      rw [hshape]
      simp [parseVal]
  | .jarr (v :: vs) =>
    intro f rest hf hrest
    cases f with
    | zero => simp [jsizeVal] at hf
    | succ f =>
      have hwf1 : wfVal v := hwf.1
      obtain ⟨X, hX⟩ := serItems_cons_eq v vs
      obtain ⟨c0, tail0, hserv, hc0⟩ := serVal_shape v hwf1
      have hc0ne := head_ne_of_shape c0 hc0
      have hconsform : serItems (v :: vs) ++ ']' :: rest
          = c0 :: (tail0 ++ (X ++ ']' :: rest)) := by
        rw [hX, hserv]
        simp
      have hfuel : jsizeItems (v :: vs) ≤ f := by
        simp only [jsizeVal] at hf
        omega
      have hitems := parseItems_rt (v :: vs) hwf (by simp) f rest hfuel
      rw [hconsform] at hitems
      have hshape : serVal (.jarr (v :: vs)) ++ rest
          = '[' :: (c0 :: (tail0 ++ (X ++ ']' :: rest))) := by
        rw [← hconsform]
        simp [serVal]
      rw [hshape]
      simp [parseVal, hc0ne.1, hitems]
  | .jobj [] =>
    intro f rest hf hrest
    cases f with
    | zero => simp [jsizeVal] at hf
    | succ f =>
      have hshape : serVal (.jobj []) ++ rest = lbrace :: rbrace :: rest := by
        simp [serVal, serFields]
      rw [hshape]
      simp [parseVal, show lbrace ≠ '"' from by decide,
        show lbrace ≠ '[' from by decide]
  | .jobj (kv :: fs) =>
    intro f rest hf hrest
    cases f with
    | zero => simp [jsizeVal] at hf
    | succ f =>
      obtain ⟨X, hX⟩ := serFields_cons_eq kv fs
      have hconsform : serFields (kv :: fs) ++ rbrace :: rest
          = '"' :: ((kv.1.map escapeChar).flatten
              ++ '"' :: (':' :: (serVal kv.2 ++ (X ++ rbrace :: rest)))) := by
        rw [hX]
        simp [serStr]
      have hfuel : jsizeFields (kv :: fs) ≤ f := by
        simp only [jsizeVal] at hf
        omega
      have hflds := parseFields_rt (kv :: fs) hwf (by simp) f rest hfuel
      rw [hconsform] at hflds
      have hshape : serVal (.jobj (kv :: fs)) ++ rest
          = lbrace :: ('"' :: ((kv.1.map escapeChar).flatten
              ++ '"' :: (':' :: (serVal kv.2 ++ (X ++ rbrace :: rest))))) := by
        rw [← hconsform]
        simp [serVal]
      rw [hshape]
      simp [parseVal, show lbrace ≠ '"' from by decide, show lbrace ≠ '[' from by decide,
        show ('"' : Char) ≠ rbrace from by decide, hflds]

theorem parseItems_rt (es : List JVal) (hwf : wfItems es) (hne : es ≠ []) :
    ∀ (f : ℕ) (rest : List Char), jsizeItems es ≤ f →
      parseItems f (serItems es ++ ']' :: rest) = some (es, rest) := by
  match es with
  | [] => exact absurd rfl hne
  | [v] =>
    intro f rest hf
    cases f with
    | zero => simp [jsizeItems] at hf
    | succ f =>
      have hfuel : jsizeVal v ≤ f := by
        simp only [jsizeItems] at hf
        omega
      have hv := parseVal_rt v hwf.1 f (']' :: rest) hfuel (Or.inr (Or.inl rfl))
      have hshape : serItems [v] ++ ']' :: rest = serVal v ++ ']' :: rest := by
        simp [serItems]
      rw [hshape]
      simp [parseItems, hv]
  | v :: w :: ws =>
    intro f rest hf
    cases f with
    | zero => simp [jsizeItems] at hf
    | succ f =>
      have hfuel1 : jsizeVal v ≤ f := by
        simp only [jsizeItems] at hf
        omega
      have hfuel2 : jsizeItems (w :: ws) ≤ f := by
        simp only [jsizeItems] at hf ⊢
        omega
      have hv := parseVal_rt v hwf.1 f (',' :: (serItems (w :: ws) ++ ']' :: rest))
        hfuel1 (Or.inl rfl)
      have hrec := parseItems_rt (w :: ws) hwf.2 (by simp) f rest hfuel2
      have hshape : serItems (v :: w :: ws) ++ ']' :: rest
          = serVal v ++ (',' :: (serItems (w :: ws) ++ ']' :: rest)) := by
        simp [serItems]
      rw [hshape]
      simp [parseItems, hv, hrec]

theorem parseFields_rt (fs : List (List Char × JVal)) (hwf : wfFields fs) (hne : fs ≠ []) :
    ∀ (f : ℕ) (rest : List Char), jsizeFields fs ≤ f →
      parseFields f (serFields fs ++ rbrace :: rest) = some (fs, rest) := by
  match fs with
  | [] => exact absurd rfl hne
  | [kv] =>
    intro f rest hf
    cases f with
    | zero => simp [jsizeFields] at hf
    | succ f =>
      have hfuel : jsizeVal kv.2 ≤ f := by
        simp only [jsizeFields] at hf
        omega
      have hv := parseVal_rt kv.2 hwf.1 f (rbrace :: rest) hfuel (Or.inr (Or.inr rfl))
      have hshape : serFields [kv] ++ rbrace :: rest
          = '"' :: ((kv.1.map escapeChar).flatten
              ++ '"' :: (':' :: (serVal kv.2 ++ rbrace :: rest))) := by
        simp [serFields, serStr]
      rw [hshape]
      simp only [parseFields]
      rw [parseStrBody_serStr kv.1 (':' :: (serVal kv.2 ++ rbrace :: rest))]
      simp [hv, show rbrace ≠ ',' from by decide]
  | kv :: f0 :: fs2 =>
    intro f rest hf
    cases f with
    | zero => simp [jsizeFields] at hf
    | succ f =>
      have hfuel1 : jsizeVal kv.2 ≤ f := by
        simp only [jsizeFields] at hf
        omega
      have hfuel2 : jsizeFields (f0 :: fs2) ≤ f := by
        simp only [jsizeFields] at hf ⊢
        omega
      have hv := parseVal_rt kv.2 hwf.1 f
        (',' :: (serFields (f0 :: fs2) ++ rbrace :: rest)) hfuel1 (Or.inl rfl)
      have hrec := parseFields_rt (f0 :: fs2) hwf.2 (by simp) f rest hfuel2
      have hshape : serFields (kv :: f0 :: fs2) ++ rbrace :: rest
          = '"' :: ((kv.1.map escapeChar).flatten ++ '"' :: (':' :: (serVal kv.2
              ++ ',' :: (serFields (f0 :: fs2) ++ rbrace :: rest)))) := by
        simp [serFields, serStr]
      rw [hshape]
      simp only [parseFields]
      rw [parseStrBody_serStr kv.1
        (':' :: (serVal kv.2 ++ ',' :: (serFields (f0 :: fs2) ++ rbrace :: rest)))]
      simp [hv, hrec]

end

mutual

theorem jsizeVal_le (v : JVal) (hwf : wfVal v) : jsizeVal v ≤ (serVal v).length := by
  match v with
  | .jnum l =>
    obtain ⟨-, c, cs, hl, -⟩ := hwf
    subst hl
    simp [jsizeVal, serVal]
  | .jstr s =>
    simp [jsizeVal, serVal, serStr]
  | .jarr es =>
    have h := jsizeItems_le es hwf
    simp only [jsizeVal, serVal, List.length_append, List.length_cons]
    omega
  | .jobj fs =>
    have h := jsizeFields_le fs hwf
    simp only [jsizeVal, serVal, List.length_append, List.length_cons]
    omega

theorem jsizeItems_le (es : List JVal) (hwf : wfItems es) :
    jsizeItems es ≤ (serItems es).length + 1 := by
  match es with
  | [] => simp [jsizeItems, serItems]
  | [v] =>
    have h := jsizeVal_le v hwf.1
    simp only [jsizeItems, serItems, List.length_nil]
    omega
  | v :: w :: ws =>
    have h1 := jsizeVal_le v hwf.1
    have h2 := jsizeItems_le (w :: ws) hwf.2
    simp only [jsizeItems, serItems, List.length_append, List.length_cons] at h2 ⊢
    omega

theorem jsizeFields_le (fs : List (List Char × JVal)) (hwf : wfFields fs) :
    jsizeFields fs ≤ (serFields fs).length + 1 := by
  match fs with
  | [] => simp [jsizeFields, serFields]
  | [kv] =>
    have h := jsizeVal_le kv.2 hwf.1
    simp only [jsizeFields, serFields, List.length_append, List.length_cons]
    omega
  | kv :: f0 :: fs2 =>
    have h1 := jsizeVal_le kv.2 hwf.1
    have h2 := jsizeFields_le (f0 :: fs2) hwf.2
    simp only [jsizeFields, serFields, List.length_append, List.length_cons] at h2 ⊢
    omega

end

theorem hexDigitChar_isDigit (k : ℕ) (h : k < 10) : (hexDigitChar k).isDigit = true := by
  interval_cases k <;> decide

theorem natLex_digits (n : ℕ) :
    natLex n ≠ [] ∧ ∀ c ∈ natLex n, c.isDigit = true := by
  induction n using Nat.strong_induction_on with
  | _ n ih =>
    rw [natLex]
    split_ifs with h
    · refine ⟨by simp, ?_⟩
      intro c hc
      simp only [List.mem_singleton] at hc
      subst hc
      exact hexDigitChar_isDigit n h
    · have ih2 := ih (n / 10) (Nat.div_lt_self (by omega) (by omega))
      refine ⟨by simp, ?_⟩
      intro c hc
      rcases List.mem_append.mp hc with h1 | h1
      · exact ih2.2 c h1
      · simp only [List.mem_singleton] at h1
        subst h1
        exact hexDigitChar_isDigit _ (Nat.mod_lt _ (by omega))

theorem numChar_of_isDigit (c : Char) (h : c.isDigit = true) : numChar c = true := by
  simp [numChar, h]

theorem numStart_of_isDigit (c : Char) (h : c.isDigit = true) : numStart c = true := by
  simp [numStart, h]

theorem wf_jnum_natLex (n : ℕ) : wfVal (.jnum (natLex n)) := by
  have h := natLex_digits n
  refine ⟨fun c hc => numChar_of_isDigit c (h.2 c hc), ?_⟩
  obtain ⟨c, cs, hl⟩ := List.exists_cons_of_ne_nil h.1
  refine ⟨c, cs, hl, numStart_of_isDigit c (h.2 c ?_)⟩
  rw [hl]
  exact List.mem_cons_self c cs

theorem scoreFrac_digits (fr : ℕ) (h : fr < 100) :
    ∀ c ∈ scoreFrac fr, c.isDigit = true := by
  intro c hc
  unfold scoreFrac at hc
  split_ifs at hc with h1 h2
  · simp only [List.mem_singleton] at hc
    subst hc
    decide
  · simp only [List.mem_singleton] at hc
    subst hc
    exact hexDigitChar_isDigit _ (by omega)
  · simp only [List.mem_cons, List.mem_singleton, List.not_mem_nil, or_false] at hc
    rcases hc with rfl | rfl
    · exact hexDigitChar_isDigit _ (by omega)
    · exact hexDigitChar_isDigit _ (Nat.mod_lt _ (by omega))

theorem wf_jnum_scoreLex (q : ℚ) : wfVal (.jnum (scoreLex q)) := by
  have hnat := natLex_digits ((round (q * 100)).natAbs / 100)
  have hfr := scoreFrac_digits ((round (q * 100)).natAbs % 100) (Nat.mod_lt _ (by omega))
  constructor
  · intro c hc
    unfold scoreLex at hc
    rcases List.mem_append.mp hc with hmem | hmem
    · rcases List.mem_append.mp hmem with hs | hn
      · split_ifs at hs
        · simp only [List.mem_singleton] at hs
          subst hs
          decide
        · simp at hs
      · exact numChar_of_isDigit c (hnat.2 c hn)
    · simp only [List.mem_cons] at hmem
      rcases hmem with rfl | hmem
      · decide
      · exact numChar_of_isDigit c (hfr c hmem)
  · unfold scoreLex
    split_ifs with hneg
    · exact ⟨'-', _, rfl, by decide⟩
    · obtain ⟨c, cs, hl⟩ := List.exists_cons_of_ne_nil hnat.1
      refine ⟨c, cs ++ '.' :: scoreFrac ((round (q * 100)).natAbs % 100), ?_, ?_⟩
      · simp [hl]
      · refine numStart_of_isDigit c (hnat.2 c ?_)
        rw [hl]
        exact List.mem_cons_self c cs

theorem wfItems_map {α : Type _} (l : List α) (g : α → JVal)
    (h : ∀ x ∈ l, wfVal (g x)) : wfItems (l.map g) := by
  induction l with
  | nil => trivial
  | cons x xs ih =>
    exact ⟨h x (List.mem_cons_self x xs),
      ih (fun y hy => h y (List.mem_cons_of_mem x hy))⟩

theorem wf_recToJson (a : CompactRecord) : wfVal (recToJson a) :=
  ⟨trivial, trivial, wf_jnum_scoreLex a.s, wf_jnum_natLex a.e, wf_jnum_natLex a.m,
    trivial, trivial⟩

theorem wf_statsToJson (labels : List String) (scores : List ℚ) (counts : List ℕ) :
    wfVal (statsToJson labels scores counts) :=
  ⟨wfItems_map labels _ (fun _ _ => trivial),
   wfItems_map scores _ (fun q _ => wf_jnum_scoreLex q),
   wfItems_map counts _ (fun n _ => wf_jnum_natLex n),
   trivial⟩

theorem wf_pkgToJson (p : DataPackage) : wfVal (pkgToJson p) :=
  ⟨wfItems_map p.anime _ (fun a _ => wf_recToJson a),
   wf_statsToJson p.genreLabels p.genreScores p.genreCounts,
   wf_statsToJson episode_order p.epScores p.epCounts,
   ⟨wf_jnum_natLex p.totalAnime, wf_jnum_natLex p.totalGenres, trivial, trivial, trivial⟩,
   trivial⟩

/-- C9: serialization is canonical — for every output package,
deserializing the written minimal-separator document succeeds, and
re-serializing the parsed value with the same minimal-separator policy
reproduces the document byte for byte. -/
theorem serialization_canonical (p : DataPackage) :
    ∃ v, parseDoc (serializeDoc p) = some v ∧ serVal v = serializeDoc p := by
  refine ⟨pkgToJson p, ?_, rfl⟩
  have hwf := wf_pkgToJson p
  have hsize : jsizeVal (pkgToJson p) ≤ (serVal (pkgToJson p)).length + 1 :=
    le_trans (jsizeVal_le _ hwf) (by omega)
  have h := parseVal_rt (pkgToJson p) hwf ((serVal (pkgToJson p)).length + 1) []
    hsize trivial
  rw [List.append_nil] at h
  unfold parseDoc serializeDoc
  rw [h]

end AnimeDash
